import Mathlib

/-!
Verification development for the Split game engine (game.py).

The source is a Python program whose arithmetic is IEEE floating point and
whose objects (GamePoint, GameLine) are mutable and compared by identity.
The embedding idealises this as follows, and each choice is noted again at
the definition it concerns:

* numbers are exact rationals (ℚ); the float literals 1e-5 (EPSILON) and
  0.01 / 0.5 of the source become the rationals 1/100000, 1/100, 1/2;
* `math.sqrt` becomes `Real.sqrt` and `math.atan` becomes `Real.arctan`
  in the specification-level definitions (`GamePoint.dist`,
  `GameLine.containsR`, `thetaR`); the executable definitions used by the
  game functions decide the very same conditions by exact rational
  arithmetic, and theorems `containsB_eq_containsR_of_onLine`,
  `inter_eq_intersectionF` and `keyLeB_eq_thetaR_le` prove the agreement;
* mutable GamePoint objects are modelled by their coordinates; the
  adjacency lists `point.lines` of the live point objects are carried in
  the state as the function `GameState.adj`, and the fresh probe points
  the source creates (whose `.lines` is always the empty list) are passed
  an explicit empty exemption list at the corresponding call sites;
* Python list mutation (`remove`, `append`) becomes `List.erase` and
  appending; an exception escaping a mutating method (AssertionError from
  the `make_move` legality assert, ValueError from `list.remove` or
  `list.index`, TypeError from indexing `None`) is modelled by the whole
  operation returning `none`.

Because the core rational operations of Lean (`Rat.add`, `Rat.mul`, ...)
are irreducible for the kernel, the definitions below use mirror
operations `qadd`, `qsub`, `qmul`, `qdiv`, `qleB`, ... built from
`mkRat`, which the kernel can evaluate.  The lemmas `qadd_eq`, `qsub_eq`,
`qmul_eq`, `qdiv_eq`, `qleB_eq_true`, ... prove that each mirror
operation is exactly the corresponding field operation of ℚ, so every
definition can be read, and is reasoned about, in ordinary field notation.
-/

/-- Addition on ℚ, stated through mkRat so that the kernel can evaluate it;
lemma qadd_eq identifies it with the field addition of ℚ. -/
def qadd (a b : ℚ) : ℚ := mkRat (a.num * b.den + b.num * a.den) (a.den * b.den)

/-- Negation on ℚ through mkRat; lemma qneg_eq identifies it with Neg.neg. -/
def qneg (a : ℚ) : ℚ := mkRat (-a.num) a.den

/-- Subtraction on ℚ through mkRat; lemma qsub_eq identifies it with Sub.sub. -/
def qsub (a b : ℚ) : ℚ := qadd a (qneg b)

/-- Multiplication on ℚ through mkRat; lemma qmul_eq identifies it with Mul.mul. -/
def qmul (a b : ℚ) : ℚ := mkRat (a.num * b.num) (a.den * b.den)

/-- Inverse on ℚ through mkRat (0 maps to 0, as in Lean's field ℚ);
lemma qinv_eq identifies it with Inv.inv. -/
def qinv (a : ℚ) : ℚ := mkRat (Int.sign a.num * a.den) a.num.natAbs

/-- Division on ℚ through mkRat; lemma qdiv_eq identifies it with Div.div. -/
def qdiv (a b : ℚ) : ℚ := qmul a (qinv b)

/-- Boolean comparison a ≤ b on ℚ by cross multiplication (denominators are
positive); lemma qleB_eq_true identifies it with ≤ on ℚ. -/
def qleB (a b : ℚ) : Bool := decide (a.num * (b.den : ℤ) ≤ b.num * (a.den : ℤ))

/-- Boolean comparison a < b on ℚ by cross multiplication; lemma
qltB_eq_true identifies it with < on ℚ. -/
def qltB (a b : ℚ) : Bool := decide (a.num * (b.den : ℤ) < b.num * (a.den : ℤ))

/-- Absolute value on ℚ through the numerator sign; lemma qabs_eq
identifies it with abs. -/
def qabs (a : ℚ) : ℚ := if a.num < 0 then qneg a else a

/-- Model of GamePoint (game.py): a point in space.  The mutable adjacency
list attribute `lines` of the Python object is carried separately, as the
function `GameState.adj` from coordinates to incident lines; this models
Python object identity by coordinates, which is faithful as long as no two
distinct live point objects share coordinates (legality forbids placing a
move endpoint on an existing endpoint). -/
structure GamePoint where
  x : ℚ
  y : ℚ
deriving DecidableEq

/-- Model of GamePoint.is_at: exact coordinate equality. -/
def GamePoint.isAt (p q : GamePoint) : Bool :=
  decide (p.x = q.x) && decide (p.y = q.y)

/-- Radicand of GamePoint.distance: (self.y - point.y)**2 + (self.x - point.x)**2. -/
def GamePoint.dsq (p q : GamePoint) : ℚ :=
  qadd (qmul (qsub p.y q.y) (qsub p.y q.y)) (qmul (qsub p.x q.x) (qsub p.x q.x))

/-- Model of GamePoint.distance: math.sqrt((self.y - point.y)**2 + (self.x - point.x)**2),
with math.sqrt read as the real square root. -/
noncomputable def GamePoint.dist (p q : GamePoint) : ℝ :=
  Real.sqrt (((p.y : ℝ) - (q.y : ℝ)) ^ 2 + ((p.x : ℝ) - (q.x : ℝ)) ^ 2)

/-- Model of GameLine (game.py): a segment with two endpoints and a color
(None for the temporary lines the source builds during checking, -1 for the
neutral border, otherwise a player number).  The stored helper coefficients
A, B, C of the source are immutable and always equal to the expressions they
are initialised from, so they are modelled as derived functions below. -/
structure GameLine where
  p1 : GamePoint
  p2 : GamePoint
  color : Option ℤ
deriving DecidableEq

/-- Helper coefficient A of GameLine.__init__: p1.y - p2.y. -/
def GameLine.A (l : GameLine) : ℚ := qsub l.p1.y l.p2.y

/-- Helper coefficient B of GameLine.__init__: p2.x - p1.x. -/
def GameLine.B (l : GameLine) : ℚ := qsub l.p2.x l.p1.x

/-- Helper coefficient C of GameLine.__init__: -1 * (p1.x*p2.y - p2.x*p1.y). -/
def GameLine.C (l : GameLine) : ℚ := qneg (qsub (qmul l.p1.x l.p2.y) (qmul l.p2.x l.p1.y))

/-- The source constant EPSILON = 1e-5, as the exact rational 1/100000. -/
def EPSILON : ℚ := mkRat 1 100000

/-- Model of GameLine.slope: (p1.y - p2.y) / (p1.x - p2.x + EPSILON). -/
def GameLine.slope (l : GameLine) : ℚ :=
  qdiv (qsub l.p1.y l.p2.y) (qadd (qsub l.p1.x l.p2.x) EPSILON)

/-- Model of GameLine.midpoint: coordinate-wise average of the endpoints. -/
def GameLine.midpoint (l : GameLine) : GamePoint :=
  ⟨qdiv (qadd l.p1.x l.p2.x) 2, qdiv (qadd l.p1.y l.p2.y) 2⟩

/-- Model of GameLine.length: distance between the two endpoints. -/
noncomputable def GameLine.lengthR (l : GameLine) : ℝ := GamePoint.dist l.p1 l.p2

/-- Model of GameLine.contains: abs(sum(dists) - self.length()) <= 0.01,
where dists are the distances from the two endpoints to the point and 0.01
is the exact rational 1/100. -/
def GameLine.containsR (l : GameLine) (p : GamePoint) : Prop :=
  |GamePoint.dist l.p1 p + GamePoint.dist l.p2 p - l.lengthR| ≤ 1 / 100

/-- Parameter of a point along a line: the t with p = p1 + t * (p2 - p1),
computed from the x coordinates when they differ and from the y coordinates
otherwise.  Used only to give GameLine.contains an exact-arithmetic
equivalent (containsB) for points that lie on the infinite line. -/
def GameLine.tparam (l : GameLine) (p : GamePoint) : ℚ :=
  if l.p1.x = l.p2.x then qdiv (qsub p.y l.p1.y) (qsub l.p2.y l.p1.y)
  else qdiv (qsub p.x l.p1.x) (qsub l.p2.x l.p1.x)

/-- Maximum of two rationals through qleB. -/
def qmax (a b : ℚ) : ℚ := if qleB a b then b else a

/-- Exact-arithmetic decision of GameLine.contains for points on the
infinite line through the segment: for p = p1 + t * (p2 - p1) the defining
condition abs(d(p1,p) + d(p2,p) - length) <= 1/100 is equivalent to
(2 * max 0 (max (-t) (t-1)))^2 * dsq(p1,p2) <= 1/10000, and for the
degenerate segment p1 = p2 it is equivalent to dsq(p,p1) <= 1/40000.
Theorem containsB_eq_containsR_of_onLine proves the agreement. -/
def GameLine.containsB (l : GameLine) (p : GamePoint) : Bool :=
  if l.p1 = l.p2 then qleB (GamePoint.dsq p l.p1) (mkRat 1 40000)
  else
    let t := l.tparam p
    let g := qmul 2 (qmax 0 (qmax (qneg t) (qsub t 1)))
    qleB (qmul (qmul g g) (GamePoint.dsq l.p1 l.p2)) (mkRat 1 10000)

/-- The candidate intersection point of GameLine.intersection: the solution
(Dx/D, Dy/D) of the 2x2 linear system given by the two implicit equations. -/
def interPt (l1 l2 : GameLine) : GamePoint :=
  ⟨qdiv (qsub (qmul l1.C l2.B) (qmul l1.B l2.C)) (qsub (qmul l1.A l2.B) (qmul l1.B l2.A)),
   qdiv (qsub (qmul l1.A l2.C) (qmul l1.C l2.A)) (qsub (qmul l1.A l2.B) (qmul l1.B l2.A))⟩

/-- Executable model of GameLine.intersection: if D = A1*B2 - B1*A2 is
nonzero, return the solution point provided both segments contain it
(containsB), else None.  Theorem inter_eq_intersectionF identifies this
with the specification-level intersectionF below, which uses the literal
square-root form of contains. -/
def GameLine.inter (l1 l2 : GameLine) : Option GamePoint :=
  if qsub (qmul l1.A l2.B) (qmul l1.B l2.A) ≠ 0 then
    if l1.containsB (interPt l1 l2) && l2.containsB (interPt l1 l2) then some (interPt l1 l2)
    else none
  else none

open Classical in
/-- Specification-level model of GameLine.intersection, with the contains
test in its literal square-root form (GameLine.containsR). -/
noncomputable def GameLine.intersectionF (l1 l2 : GameLine) : Option GamePoint :=
  if qsub (qmul l1.A l2.B) (qmul l1.B l2.A) ≠ 0 then
    if l1.containsR (interPt l1 l2) ∧ l2.containsR (interPt l1 l2) then some (interPt l1 l2)
    else none
  else none

/-- Model of GameArea (game.py): an ordered polygon with a color.  The
Python object stores its score at construction; since both the point list
and the score are immutable, the score is modelled as the derived function
GameArea.score.  The back reference to the owning GameState (used only by
GameArea.contains through clear_path) is passed explicitly at the call
sites, which is faithful because every area consulted by the engine was
created with the engine's own state as that back reference. -/
structure GameArea where
  points : List GamePoint
  color : Option ℤ
deriving DecidableEq

/-- Model of GameArea.calculate_score: the shoelace formula
0.5 * (sum x_i * y_(i+1 mod n) - sum y_i * x_(i+1 mod n)). -/
def GameArea.score (a : GameArea) : ℚ :=
  qmul (mkRat 1 2)
    ((a.points.zip (a.points.rotate 1)).foldl
      (fun acc pq => qadd acc (qsub (qmul pq.1.x pq.2.y) (qmul pq.1.y pq.2.x))) 0)

/-- Model of GameMove (game.py): optional endpoints, optional lines to be
split (the Python default value True of p1_line / p2_line, which is not a
line, is modelled as none), optional area. -/
structure GameMove where
  p1 : Option GamePoint := none
  p1Line : Option GameLine := none
  p2 : Option GamePoint := none
  p2Line : Option GameLine := none
  area : Option GameArea := none

/-- Model of the line_move attribute, set at construction: area is None. -/
def GameMove.lineMove (m : GameMove) : Bool := m.area.isNone

/-- Model of GameState (game.py).  Python's point objects carry their own
adjacency lists; here adj maps every live point's coordinates to that list.
The game_area attribute (the constant whole-board polygon used only by the
renderer) is omitted: no claim and no modelled operation reads it. -/
structure GameState where
  width : ℚ
  minScore : ℚ
  areas : List GameArea
  lines : List GameLine
  nextPlayer : ℤ
  areaSplitLine : Option GameLine
  scores : ℚ × ℚ
  adj : GamePoint → List GameLine

/-- The temporary line GameLine(p1, p2) built during checking: default
color None, and add_self_to_points is False so no adjacency is touched. -/
def mkTempLine (p q : GamePoint) : GameLine := ⟨p, q, none⟩

/-- Model of GameState.clear_path(p1, p2, ignore_lines): every state line
is passed unless it is in ignore_lines, does not intersect the temporary
p1-p2 line, or lies in the adjacency list of p1 or of p2.  The two
adjacency lists are explicit arguments (ex1 for p1, ex2 for p2): call
sites pass the live point's list s.adj and the literal [] for the fresh
probe points the source creates, whose .lines is always empty. -/
def clearPath (s : GameState) (a b : GamePoint) (ignore ex1 ex2 : List GameLine) : Bool :=
  s.lines.all fun l =>
    decide (l ∈ ignore) || !((mkTempLine a b).inter l).isSome ||
      decide (l ∈ ex1) || decide (l ∈ ex2)

/-- Model of GameArea.contains(point, ignore_lines): every polygon vertex
must have a clear path to the point.  The vertex is the p1 of the
clear_path call (its live adjacency list s.adj p exempts its own lines)
and the probe point is p2 (fresh object, empty adjacency). -/
def areaContains (s : GameState) (ar : GameArea) (pt : GamePoint) (ignore : List GameLine) : Bool :=
  ar.points.all fun p => clearPath s p pt ignore (s.adj p) []

/-- Model of GameState.is_legal_move.  For a non-line move the source
returns move.area itself, whose truthiness is: not None.  For a line move
the checks are, in source order: no pending area split; both endpoints
present; per line: neither endpoint at an existing endpoint, no slope
coincidence with the line designated for splitting, no intersection with a
line other than the two designated ones; finally the midpoint must not lie
in a scored area. -/
def isLegalMove (s : GameState) (m : GameMove) : Bool :=
  if !m.lineMove then m.area.isSome
  else if s.areaSplitLine.isSome then false
  else
    match m.p1, m.p2 with
    | some p1, some p2 =>
      (s.lines.all fun l =>
        (!(p1.isAt l.p1 || p1.isAt l.p2 || p2.isAt l.p1 || p2.isAt l.p2)) &&
        (!((decide (m.p1Line = some l) || decide (m.p2Line = some l)) &&
            decide ((mkTempLine p1 p2).slope = l.slope))) &&
        (!(((mkTempLine p1 p2).inter l).isSome &&
            !decide (m.p1Line = some l) && !decide (m.p2Line = some l)))) &&
      (s.areas.all fun ar => !areaContains s ar ((mkTempLine p1 p2).midpoint) [])
    | _, _ => false

/-- Accumulate a point if not already present.  The source collects the
endpoints into a Python set (deduplicated, unspecified iteration order);
the model keeps first-occurrence order, which is immaterial because the
list is subsequently sorted and ties of the exact sort key are ties of
the source key as well. -/
def addPt (acc : List GamePoint) (p : GamePoint) : List GamePoint :=
  if p ∈ acc then acc else acc ++ [p]

/-- All endpoints of the given lines, deduplicated. -/
def collectPoints (ls : List GameLine) : List GamePoint :=
  ls.foldl (fun acc l => addPt (addPt acc l.p1) l.p2) []

/-- The shift condition of the angular sort in get_areas:
abs(middle.x - p.x) < EPSILON or middle.x < p.x (then pi is added). -/
def shiftB (m p : GamePoint) : Bool :=
  qltB (qabs (qsub m.x p.x)) EPSILON || qltB m.x p.x

/-- The arctan argument of the angular sort in get_areas:
(p.y - middle.y) / (p.x - middle.x + EPSILON). -/
def thetaFrac (m p : GamePoint) : ℚ :=
  qdiv (qsub p.y m.y) (qadd (qsub p.x m.x) EPSILON)

/-- The sort key of get_areas in its literal form:
theta = atan(thetaFrac) plus pi when shifted. -/
noncomputable def thetaR (m p : GamePoint) : ℝ :=
  Real.arctan ((thetaFrac m p : ℚ) : ℝ) + (if shiftB m p then Real.pi else 0)

/-- Exact comparison of two sort keys: a non-shifted key is below a shifted
one (arctan is bounded by pi/2), and within one shift class the keys
compare as their arctan arguments.  Theorem keyLeB_eq_thetaR_le proves
this is exactly thetaR m p <= thetaR m q. -/
def keyLeB (m p q : GamePoint) : Bool :=
  (!shiftB m p && shiftB m q) ||
    ((shiftB m p == shiftB m q) && qleB (thetaFrac m p) (thetaFrac m q))

/-- Insert x after every element le-below-or-equal to it: the insertion
step of a stable ascending insertion sort. -/
def insertSorted (le : GamePoint → GamePoint → Bool) (x : GamePoint) :
    List GamePoint → List GamePoint
  | [] => [x]
  | y :: ys => if le y x then y :: insertSorted le x ys else x :: y :: ys

/-- Stable ascending sort by the exact key order keyLeB.  The source sorts
with Python's stable list.sort keyed by theta; any stable ascending sort
by the same total key order produces the same list, and keyLeB is that
order (theorem keyLeB_eq_thetaR_le). -/
def sortPoints (m : GamePoint) (ps : List GamePoint) : List GamePoint :=
  ps.foldl (fun acc x => insertSorted (keyLeB m) x acc) []

/-- The visible points of get_areas: all endpoints with a clear path from
the midpoint of the split line, ignoring the split line itself.  The
midpoint is a fresh point (empty adjacency, ex1 = []); the target point is
live (ex2 = s.adj x). -/
def visiblePts (s : GameState) (split : GameLine) : List GamePoint :=
  (collectPoints s.lines).filter fun x =>
    clearPath s split.midpoint x [split] [] (s.adj x)

/-- The visible points of get_areas in angular order around the midpoint. -/
def sortedVisible (s : GameState) (split : GameLine) : List GamePoint :=
  sortPoints split.midpoint (visiblePts s split)

/-- The smaller of the two sorted positions of the split line's endpoints
(min of split_point_indexes in get_areas). -/
def idxA (s : GameState) (split : GameLine) : ℕ :=
  min ((sortedVisible s split).findIdx fun z => decide (z = split.p1))
      ((sortedVisible s split).findIdx fun z => decide (z = split.p2))

/-- The larger of the two sorted positions of the split line's endpoints
(max of split_point_indexes in get_areas). -/
def idxB (s : GameState) (split : GameLine) : ℕ :=
  max ((sortedVisible s split).findIdx fun z => decide (z = split.p1))
      ((sortedVisible s split).findIdx fun z => decide (z = split.p2))

/-- The first arc of get_areas: points[i1 : i2+1]. -/
def arcOne (s : GameState) (split : GameLine) : List GamePoint :=
  ((sortedVisible s split).drop (idxA s split)).take (idxB s split + 1 - idxA s split)

/-- The second arc of get_areas: points[0 : i1+1] + points[i2 :]. -/
def arcTwo (s : GameState) (split : GameLine) : List GamePoint :=
  (sortedVisible s split).take (idxA s split + 1) ++ (sortedVisible s split).drop (idxB s split)

/-- Model of GameState.get_areas.  After sorting the visible points, the
positions i1 <= i2 of the split line's endpoints cut the cyclic order into
points[i1..i2] (arcOne) and points[0..i1] ++ points[i2..] (arcTwo); arcs
shorter than 3 yield None.  list.index raising ValueError when an endpoint
is not among the visible points (and the unpacking error on an empty list,
which that case subsumes) is modelled by None. -/
def getAreas (s : GameState) (split : GameLine) (color : ℤ) : Option (GameArea × GameArea) :=
  if decide (split.p1 ∈ sortedVisible s split) && decide (split.p2 ∈ sortedVisible s split) then
    if (arcOne s split).length < 3 || (arcTwo s split).length < 3 then none
    else some (⟨arcOne s split, some color⟩, ⟨arcTwo s split, some color⟩)
  else none

/-- Append line l to the adjacency list of point q (point.lines.append). -/
def updAdj (f : GamePoint → List GameLine) (q : GamePoint) (l : GameLine) :
    GamePoint → List GameLine :=
  fun r => if r = q then f r ++ [l] else f r

/-- Remove the first occurrence of line l from the adjacency list of point q
(point.lines.remove). -/
def eraseAdj (f : GamePoint → List GameLine) (q : GamePoint) (l : GameLine) :
    GamePoint → List GameLine :=
  fun r => if r = q then (f r).erase l else f r

/-- Model of GameState.split_line: remove the old line, and for each of its
endpoints create a replacement line to the new point (inheriting the color,
added to both endpoints' adjacency lists), remove the old line from that
endpoint's adjacency list, and append the replacement to the state's lines.
list.remove raising ValueError (old line absent from the state's lines or
from an endpoint's adjacency list) is modelled by None.  The assert in
GameLine.__init__ (`self not in ep.lines`) compares by object identity and
a freshly constructed object is never already in a list, so it never fires
and is not modelled. -/
def splitLine (s : GameState) (old : GameLine) (np : GamePoint) : Option GameState :=
  if decide (old ∈ s.lines) then
    let n1 : GameLine := ⟨old.p1, np, old.color⟩
    let adj1 := updAdj (updAdj s.adj old.p1 n1) np n1
    if decide (old ∈ adj1 old.p1) then
      let adj2 := eraseAdj adj1 old.p1 old
      let n2 : GameLine := ⟨old.p2, np, old.color⟩
      let adj3 := updAdj (updAdj adj2 old.p2 n2) np n2
      if decide (old ∈ adj3 old.p2) then
        some { s with lines := (s.lines.erase old) ++ [n1, n2], adj := eraseAdj adj3 old.p2 old }
      else none
    else none
  else none

/-- The line-move mutation prefix of GameState.make_move: split p1_line at
p1, split p2_line at p2, then create the new line from p1 to p2 colored
with the mover's color and attached to both endpoints.  Returns the
resulting state and the new line.  A missing endpoint or a p1_line/p2_line
that is not a line (the Python default True) makes list.remove raise, i.e.
None. -/
def applySplits (s : GameState) (m : GameMove) : Option (GameState × GameLine) :=
  match m.p1Line, m.p1 with
  | some l1, some p1 =>
    match splitLine s l1 p1 with
    | none => none
    | some s1 =>
      match m.p2Line, m.p2 with
      | some l2, some p2 =>
        match splitLine s1 l2 p2 with
        | none => none
        | some s2 =>
          some ({ s2 with
                    lines := s2.lines ++ [⟨p1, p2, some s.nextPlayer⟩],
                    adj := updAdj (updAdj s2.adj p1 ⟨p1, p2, some s.nextPlayer⟩) p2
                             ⟨p1, p2, some s.nextPlayer⟩ },
                ⟨p1, p2, some s.nextPlayer⟩)
      | _, _ => none
  | _, _ => none

/-- Model of the Python list indexing self.scores[idx] += v for the
two-element score list: Python indices 0 and -2 denote the first element,
1 and -1 the second, anything else raises IndexError (None). -/
def updScore (sc : ℚ × ℚ) (idx : ℤ) (v : ℚ) : Option (ℚ × ℚ) :=
  if idx = 0 ∨ idx = -2 then some (qadd sc.1 v, sc.2)
  else if idx = 1 ∨ idx = -1 then some (sc.1, qadd sc.2 v)
  else none

/-- The area-selection branch of GameState.make_move: append the chosen
area, credit its score to scores[area.color - 1], clear area_split_line.
area being None or area.color being None makes the branch raise (None);
next_player is not touched. -/
def areaBranch (s : GameState) (m : GameMove) : Option GameState :=
  match m.area with
  | none => none
  | some a =>
    match a.color with
    | none => none
    | some c =>
      match updScore s.scores (c - 1) a.score with
      | none => none
      | some sc =>
        some { s with areas := s.areas ++ [a], scores := sc, areaSplitLine := none }

/-- Whether both designated split lines carry the mover's color
(move.p1_line.color == next_player and move.p2_line.color == next_player).
When this test is reached in make_move both lines are present, so the
fallback value for absent lines is never consulted. -/
def ownColors (m : GameMove) (c : ℤ) : Bool :=
  match m.p1Line, m.p2Line with
  | some l1, some l2 => decide (l1.color = some c) && decide (l2.color = some c)
  | _, _ => false

/-- Model of GameState.make_move.  The legality assert failing, or any
exception escaping the mutation (see splitLine, areaBranch, getAreas),
is modelled by None.  The source branches on area_split_line being set,
not on the move's kind; the line branch splits, creates the new line,
computes the two candidate areas, auto-fills when their combined score is
at most min_score, enters area selection when both split lines carry the
mover's color, and always flips next_player. -/
def makeMove (s : GameState) (m : GameMove) : Option GameState :=
  if isLegalMove s m then
    if s.areaSplitLine.isSome then areaBranch s m
    else
      match applySplits s m with
      | none => none
      | some (s3, nl) =>
        match getAreas s3 nl s3.nextPlayer with
        | none => none
        | some (a1, a2) =>
          if qleB (qadd a1.score a2.score) s3.minScore then
            match updScore s3.scores (s3.nextPlayer - 1) (qadd a1.score a2.score) with
            | none => none
            | some sc =>
              some { s3 with areas := s3.areas ++ [a1, a2], scores := sc,
                             nextPlayer := 3 - s3.nextPlayer }
          else if ownColors m s3.nextPlayer then
            some { s3 with areaSplitLine := some nl, nextPlayer := 3 - s3.nextPlayer }
          else some { s3 with nextPlayer := 3 - s3.nextPlayer }
  else none

/-- Corner (0, 0) of the initial board (width 10). -/
def bP1 : GamePoint := ⟨0, 0⟩

/-- Corner (0, 10) of the initial board. -/
def bP2 : GamePoint := ⟨0, 10⟩

/-- Corner (10, 10) of the initial board. -/
def bP3 : GamePoint := ⟨10, 10⟩

/-- Corner (10, 0) of the initial board. -/
def bP4 : GamePoint := ⟨10, 0⟩

/-- Initial left border line GameLine(p1, p2, -1). -/
def bL1 : GameLine := ⟨bP1, bP2, some (-1)⟩

/-- Initial top border line GameLine(p2, p3, -1). -/
def bL2 : GameLine := ⟨bP2, bP3, some (-1)⟩

/-- Initial right border line GameLine(p3, p4, -1). -/
def bL3 : GameLine := ⟨bP3, bP4, some (-1)⟩

/-- Initial bottom border line GameLine(p4, p1, -1). -/
def bL4 : GameLine := ⟨bP4, bP1, some (-1)⟩

/-- Adjacency lists after new_game: each corner carries its two border
lines, in the order the add_self_to_points constructor appended them. -/
def initAdj : GamePoint → List GameLine := fun q =>
  if q = bP1 then [bL1, bL4]
  else if q = bP2 then [bL1, bL2]
  else if q = bP3 then [bL2, bL3]
  else if q = bP4 then [bL3, bL4]
  else []

/-- The state after GameState.__init__ (which calls new_game): width 10,
min_score 5, the four neutral border lines, no areas, player 1 to move,
no pending area split, zero scores. -/
def initialState : GameState :=
  ⟨10, 5, [], [bL1, bL2, bL3, bL4], 1, none, (0, 0), initAdj⟩

/-- A line move of player 1 on the fresh board: endpoints (2,0) on the
bottom border and (2,10) on the top border. -/
def move1 : GameMove :=
  { p1 := some ⟨2, 0⟩, p1Line := some bL4, p2 := some ⟨2, 10⟩, p2Line := some bL2, area := none }

/-- The top-right half line produced when move1 splits the top border at
(2,10): from (10,10) to (2,10), neutral color. -/
def hT2 : GameLine := ⟨bP3, ⟨2, 10⟩, some (-1)⟩

/-- A line move of player 2 after move1 whose first endpoint (5,5) does not
lie on its designated split line (the left border): is_legal_move never
verifies that an endpoint lies on the line it is declared to split. -/
def move2 : GameMove :=
  { p1 := some ⟨5, 5⟩, p1Line := some bL1, p2 := some ⟨7, 10⟩, p2Line := some hT2, area := none }

/-- Replacement half of the left border after move2: from (0,0) to (5,5). -/
def crossA : GameLine := ⟨bP1, ⟨5, 5⟩, some (-1)⟩

/-- The line drawn by move1: from (2,0) to (2,10), owned by player 1. -/
def crossB : GameLine := ⟨⟨2, 0⟩, ⟨2, 10⟩, some 1⟩

/-- Check that a state contains the two distinct lines crossA and crossB
and that they intersect at a point that is an endpoint of neither (hence
not a shared endpoint). -/
def c5Check (s : GameState) : Bool :=
  decide (crossA ∈ s.lines) && decide (crossB ∈ s.lines) && decide (crossA ≠ crossB) &&
    (match GameLine.inter crossA crossB with
     | some p => !(p.isAt crossA.p1 || p.isAt crossA.p2 || p.isAt crossB.p1 || p.isAt crossB.p2)
     | none => false)

/-- A diagonal line of the board square, used as a concrete split line. -/
def diagL : GameLine := ⟨bP1, bP3, some 1⟩

/-- A concrete state: the initial board plus the diagonal. -/
def stateW : GameState :=
  { initialState with lines := [bL1, bL2, bL3, bL4, diagL] }

/-- A concrete triangular area pre-colored for player 1. -/
def areaT : GameArea := ⟨[bP1, bP4, bP3], some 1⟩

/-- An area-selection move carrying areaT. -/
def moveC1 : GameMove := { area := some areaT }

/-- A line move with both endpoints missing. -/
def moveNoP : GameMove := { area := none }

/-- The object discipline of the claims about reachable states, expressed
in the coordinate model: the endpoints supplied with a move are fresh
point objects (coordinates that differ from each other and from every
endpoint on the board; for a legal line move the second part is also
enforced by is_legal_move), and the split-line fields reference existing
board line objects (the caller passes line objects it obtained from the
state; a foreign object would make list.remove raise). -/
def FreshMove (s : GameState) (m : GameMove) : Prop :=
  (∀ p1 p2 : GamePoint, m.p1 = some p1 → m.p2 = some p2 → p1 ≠ p2) ∧
  (∀ p : GamePoint, (m.p1 = some p ∨ m.p2 = some p) →
    ∀ l ∈ s.lines, p ≠ l.p1 ∧ p ≠ l.p2) ∧
  (∀ l : GameLine, (m.p1Line = some l ∨ m.p2Line = some l) → l ∈ s.lines)

/-- States reachable from the initial state by successful make_move calls
respecting the object discipline FreshMove. -/
inductive ReachableF : GameState → Prop
  | init : ReachableF initialState
  | step {s s' : GameState} {m : GameMove} :
      ReachableF s → FreshMove s m → makeMove s m = some s' → ReachableF s'

/-- The adjacency invariant together with the auxiliary facts its
preservation needs: the state's lines are pairwise distinct, every line
has two distinct endpoints, every adjacency list is duplicate-free, and a
line is in a point's adjacency list exactly when it is a state line with
that point as an endpoint. -/
def InvState (s : GameState) : Prop :=
  s.lines.Nodup ∧
  (∀ l ∈ s.lines, l.p1 ≠ l.p2) ∧
  (∀ q : GamePoint, (s.adj q).Nodup) ∧
  (∀ q : GamePoint, ∀ l : GameLine, l ∈ s.adj q ↔ (l ∈ s.lines ∧ (q = l.p1 ∨ q = l.p2)))

/-- A concrete state in AREA_SELECT mode: the initial board with the
diagonal recorded as the pending split line. -/
def stateA : GameState :=
  { initialState with areaSplitLine := some diagL }

/-- A point lies on the infinite line through a GameLine's endpoints:
it satisfies the line's implicit equation A*x + B*y = C. -/
def onLine (l : GameLine) (p : GamePoint) : Prop :=
  l.A * p.x + l.B * p.y = l.C

/-- The anti-diagonal of the board square, crossing diagL at (5,5). -/
def diagM : GameLine := ⟨bP2, bP4, some 2⟩

theorem qadd_eq (a b : ℚ) : qadd a b = a + b := by
  rw [qadd, Rat.mkRat_eq_div]
  have ha : ((a.den : ℚ)) ≠ 0 := by exact_mod_cast a.den_nz
  have hb : ((b.den : ℚ)) ≠ 0 := by exact_mod_cast b.den_nz
  conv_rhs => rw [← Rat.num_div_den a, ← Rat.num_div_den b]
  push_cast
  field_simp

theorem qneg_eq (a : ℚ) : qneg a = -a := by
  rw [qneg, Rat.mkRat_eq_div]
  have ha : ((a.den : ℚ)) ≠ 0 := by exact_mod_cast a.den_nz
  conv_rhs => rw [← Rat.num_div_den a]
  push_cast
  field_simp

theorem qsub_eq (a b : ℚ) : qsub a b = a - b := by
  rw [qsub, qadd_eq, qneg_eq, sub_eq_add_neg]

theorem qmul_eq (a b : ℚ) : qmul a b = a * b := by
  rw [qmul, Rat.mkRat_eq_div]
  have ha : ((a.den : ℚ)) ≠ 0 := by exact_mod_cast a.den_nz
  have hb : ((b.den : ℚ)) ≠ 0 := by exact_mod_cast b.den_nz
  conv_rhs => rw [← Rat.num_div_den a, ← Rat.num_div_den b]
  push_cast
  field_simp

theorem qinv_eq (a : ℚ) : qinv a = a⁻¹ := by
  rw [qinv, Rat.mkRat_eq_div]
  rcases lt_trichotomy a.num 0 with h | h | h
  · have hna : ((a.num.natAbs : ℚ)) = -(a.num : ℚ) := by
      rw [Int.cast_natAbs]
      exact_mod_cast abs_of_neg h
    have hs : Int.sign a.num = -1 := Int.sign_eq_neg_one_of_neg h
    conv_rhs => rw [← Rat.num_div_den a]
    rw [hs, inv_div]
    push_cast [hna]
    rw [neg_mul, one_mul, neg_div_neg_eq]
  · have h0 : a = 0 := by
      have := Rat.num_div_den a
      rw [h] at this
      simpa using this.symm
    simp [h0, h]
  · have hna : ((a.num.natAbs : ℚ)) = (a.num : ℚ) := by
      rw [Int.cast_natAbs]
      exact_mod_cast abs_of_pos h
    have hs : Int.sign a.num = 1 := Int.sign_eq_one_of_pos h
    conv_rhs => rw [← Rat.num_div_den a]
    rw [hs, inv_div]
    push_cast [hna]
    rw [one_mul]

theorem qdiv_eq (a b : ℚ) : qdiv a b = a / b := by
  rw [qdiv, qmul_eq, qinv_eq, div_eq_mul_inv]

theorem qleB_eq_true (a b : ℚ) : qleB a b = true ↔ a ≤ b := by
  rw [qleB, decide_eq_true_eq, Rat.le_def]

theorem qltB_eq_true (a b : ℚ) : qltB a b = true ↔ a < b := by
  rw [qltB, decide_eq_true_eq, Rat.lt_def]

theorem qabs_eq (a : ℚ) : qabs a = |a| := by
  rw [qabs]
  rcases lt_trichotomy a.num 0 with h | h | h
  · rw [if_pos h, qneg_eq, abs_of_neg (Rat.num_neg.mp h)]
  · have h0 : a = 0 := by
      have := Rat.num_div_den a
      rw [h] at this
      simpa using this.symm
    simp [h0, qneg_eq]
  · rw [if_neg (by omega), abs_of_pos (Rat.num_pos.mp h)]

theorem isAt_iff (p q : GamePoint) : p.isAt q = true ↔ p = q := by
  cases p with
  | mk px py =>
    cases q with
    | mk qx qy =>
      simp [GamePoint.isAt, GamePoint.mk.injEq]

/-- C5 (code bug): on the board reached by the two legal moves move1 and
move2, the surviving left-border half crossA = ((0,0),(5,5)) and move1's
line crossB = ((2,0),(2,10)) are distinct state lines whose intersection
(at (2,2)) is an endpoint of neither, violating the no-crossing invariant.
The engine accepts move2 although its endpoint (5,5) does not lie on the
left border it declares to split, so the two replacement halves cut across
the board. -/
theorem claimC5 :
    ((makeMove initialState move1).bind fun s => makeMove s move2).map c5Check = some true := by
  decide

/-- C1 counterexample: the claim "an AreaChoice is legal iff
area_split_line is set and the area is non-null" is false at the initial
state (area_split_line is None) with the non-null area move moveC1, which
is_legal_move accepts. -/
theorem claimC1_counter :
    ¬ ((isLegalMove initialState moveC1 = true) ↔
        (initialState.areaSplitLine.isSome = true ∧ moveC1.area.isSome = true)) := by
  decide

/-- C1 (amended): for a GameMove whose area is not None, is_legal_move
returns a truthy value regardless of area_split_line: the mode is not
consulted in the area branch. -/
theorem claimC1 (s : GameState) (m : GameMove) (h : m.area.isSome = true) :
    isLegalMove s m = true := by
  unfold isLegalMove GameMove.lineMove
  cases ha : m.area with
  | none => rw [ha] at h; simp at h
  | some a => simp [ha]

theorem claimC1_witness : isLegalMove stateW moveC1 = true :=
  claimC1 stateW moveC1 (by decide)

/-- C7: a move rejected by is_legal_move makes make_move fail (the assert
raises) with no resulting state; in the pure embedding is_legal_move is a
function of the state and move alone, so repeated calls agree and leave
the state untouched by construction (the source performs no writes in
is_legal_move: its temporary GameLine objects are built with
add_self_to_points=False). -/
theorem claimC7 (s : GameState) (m : GameMove) (h : isLegalMove s m = false) :
    makeMove s m = none := by
  unfold makeMove
  rw [h]
  simp

theorem claimC7_witness :
    isLegalMove initialState moveNoP = false ∧ makeMove initialState moveNoP = none :=
  ⟨by decide, claimC7 initialState moveNoP (by decide)⟩

theorem splitLine_fields (s : GameState) (old : GameLine) (np : GamePoint) (t : GameState)
    (h : splitLine s old np = some t) :
    t.width = s.width ∧ t.minScore = s.minScore ∧ t.areas = s.areas ∧
    t.nextPlayer = s.nextPlayer ∧ t.areaSplitLine = s.areaSplitLine ∧ t.scores = s.scores := by
  simp only [splitLine] at h
  split_ifs at h
  injection h with h
  subst h
  exact ⟨rfl, rfl, rfl, rfl, rfl, rfl⟩

theorem applySplits_fields (s : GameState) (m : GameMove) (s3 : GameState) (nl : GameLine)
    (h : applySplits s m = some (s3, nl)) :
    s3.width = s.width ∧ s3.minScore = s.minScore ∧ s3.areas = s.areas ∧
    s3.nextPlayer = s.nextPlayer ∧ s3.areaSplitLine = s.areaSplitLine ∧ s3.scores = s.scores := by
  cases hm1 : m.p1Line with
  | none => simp [applySplits, hm1] at h
  | some l1 =>
    cases hp1 : m.p1 with
    | none => simp [applySplits, hm1, hp1] at h
    | some p1 =>
      cases hs1 : splitLine s l1 p1 with
      | none => simp [applySplits, hm1, hp1, hs1] at h
      | some t1 =>
        cases hm2 : m.p2Line with
        | none => simp [applySplits, hm1, hp1, hs1, hm2] at h
        | some l2 =>
          cases hp2 : m.p2 with
          | none => simp [applySplits, hm1, hp1, hs1, hm2, hp2] at h
          | some p2 =>
            cases hs2 : splitLine t1 l2 p2 with
            | none => simp [applySplits, hm1, hp1, hs1, hm2, hp2, hs2] at h
            | some t2 =>
              simp only [applySplits, hm1, hp1, hs1, hm2, hp2, hs2, Option.some.injEq,
                Prod.mk.injEq] at h
              obtain ⟨h3, -⟩ := h
              obtain ⟨a1, a2, a3, a4, a5, a6⟩ := splitLine_fields s l1 p1 t1 hs1
              obtain ⟨b1, b2, b3, b4, b5, b6⟩ := splitLine_fields t1 l2 p2 t2 hs2
              subst h3
              exact ⟨b1.trans a1, b2.trans a2, b3.trans a3, b4.trans a4, b5.trans a5, b6.trans a6⟩

/-- C4: a make_move that starts outside AREA_SELECT (the line branch)
always flips next_player to 3 - mover, in every branch, so on entering
AREA_SELECT the turn belongs to the opponent; a legal AreaChoice applied
in AREA_SELECT appends the chosen area, credits its score to the score
slot of its pre-assigned color, clears area_split_line and leaves
next_player unchanged. -/
theorem claimC4 :
    (∀ (s : GameState) (m : GameMove) (t : GameState),
        s.areaSplitLine = none → makeMove s m = some t →
        t.nextPlayer = 3 - s.nextPlayer) ∧
    (∀ (s : GameState) (m : GameMove) (t : GameState) (a : GameArea),
        s.areaSplitLine.isSome = true → m.area = some a → makeMove s m = some t →
        t.areas = s.areas ++ [a] ∧ t.areaSplitLine = none ∧ t.nextPlayer = s.nextPlayer ∧
        (a.color = some 1 → t.scores = (s.scores.1 + a.score, s.scores.2)) ∧
        (a.color = some 2 → t.scores = (s.scores.1, s.scores.2 + a.score))) := by
  constructor
  · intro s m t hs h
    cases hleg : isLegalMove s m with
    | false => simp [makeMove, hleg] at h
    | true =>
      cases hap : applySplits s m with
      | none => simp [makeMove, hleg, hs, hap] at h
      | some pr =>
        obtain ⟨s3, nl⟩ := pr
        cases hga : getAreas s3 nl s3.nextPlayer with
        | none => simp [makeMove, hleg, hs, hap, hga] at h
        | some ab =>
          obtain ⟨a1, a2⟩ := ab
          have hnp := (applySplits_fields s m s3 nl hap).2.2.2.1
          simp only [makeMove, hleg, hs, hap, hga, if_true, Option.isSome_none,
            Bool.false_eq_true, if_false] at h
          split_ifs at h with h1 h2
          · cases hup : updScore s3.scores (s3.nextPlayer - 1) (qadd a1.score a2.score) with
            | none => rw [hup] at h; simp at h
            | some sc =>
              rw [hup] at h
              injection h with h
              subst h
              rw [hnp]
          · injection h with h
            subst h
            rw [hnp]
          · injection h with h
            subst h
            rw [hnp]
  · intro s m t a hs hm h
    cases hleg : isLegalMove s m with
    | false => simp [makeMove, hleg] at h
    | true =>
      simp only [makeMove, hleg, hs, if_true] at h
      simp only [areaBranch, hm] at h
      cases hc : a.color with
      | none => simp [hc] at h
      | some c =>
        simp only [hc] at h
        cases hup : updScore s.scores (c - 1) a.score with
        | none => simp [hup] at h
        | some sc =>
          simp only [hup, Option.some.injEq] at h
          subst h
          refine ⟨rfl, rfl, rfl, ?_, ?_⟩
          · intro h1
            injection h1 with h1
            subst h1
            have : updScore s.scores 0 a.score = some (qadd s.scores.1 a.score, s.scores.2) := by
              simp [updScore]
            rw [show ((1 : ℤ) - 1) = 0 by norm_num] at hup
            rw [this] at hup
            injection hup with hup
            rw [← hup, qadd_eq]
          · intro h1
            injection h1 with h1
            subst h1
            have : updScore s.scores 1 a.score = some (s.scores.1, qadd s.scores.2 a.score) := by
              simp [updScore]
            rw [show ((2 : ℤ) - 1) = 1 by norm_num] at hup
            rw [this] at hup
            injection hup with hup
            rw [← hup, qadd_eq]

theorem claimC4_witness :
    ∃ t : GameState, makeMove stateA moveC1 = some t ∧ t.areas = stateA.areas ++ [areaT] ∧
      t.areaSplitLine = none ∧ t.nextPlayer = stateA.nextPlayer := by
  cases ht : makeMove stateA moveC1 with
  | none =>
    have hs : (makeMove stateA moveC1).isSome = true := by decide
    rw [ht] at hs
    simp at hs
  | some t =>
    obtain ⟨h1, h2, h3, -, -⟩ := claimC4.2 stateA moveC1 t areaT (by decide) rfl ht
    exact ⟨t, rfl, h1, h2, h3⟩

/-- C3: for a legal line move applied outside AREA_SELECT, with s3 the
state after the splits and the new line nl, and a1, a2 the two candidate
areas from get_areas: if their combined score is at most min_score
(including equality) both areas are committed and the total is credited to
the mover and no pending selection is created; otherwise if both split
lines carry the mover's color, no area is committed and area_split_line is
set to nl; otherwise no area is committed and area_split_line stays as it
was (None). -/
theorem claimC3 (s : GameState) (m : GameMove) (s3 : GameState) (nl : GameLine)
    (a1 a2 : GameArea)
    (hleg : isLegalMove s m = true) (hsp : s.areaSplitLine = none)
    (hpl : s.nextPlayer = 1 ∨ s.nextPlayer = 2)
    (hap : applySplits s m = some (s3, nl))
    (hga : getAreas s3 nl s3.nextPlayer = some (a1, a2)) :
    (a1.score + a2.score ≤ s.minScore →
      makeMove s m = some { s3 with
        areas := s3.areas ++ [a1, a2]
        scores := (if s.nextPlayer = 1 then (s3.scores.1 + (a1.score + a2.score), s3.scores.2)
                   else (s3.scores.1, s3.scores.2 + (a1.score + a2.score)))
        nextPlayer := 3 - s.nextPlayer }) ∧
    (¬ a1.score + a2.score ≤ s.minScore → ownColors m s.nextPlayer = true →
      makeMove s m = some { s3 with
        areaSplitLine := some nl
        nextPlayer := 3 - s.nextPlayer }) ∧
    (¬ a1.score + a2.score ≤ s.minScore → ownColors m s.nextPlayer = false →
      makeMove s m = some { s3 with nextPlayer := 3 - s.nextPlayer }) := by
  obtain ⟨-, hmin, -, hnp, -, hsc⟩ := applySplits_fields s m s3 nl hap
  have hle : qleB (qadd a1.score a2.score) s3.minScore = true ↔
      a1.score + a2.score ≤ s.minScore := by
    rw [qleB_eq_true, qadd_eq, hmin]
  refine ⟨?_, ?_, ?_⟩
  · intro htot
    simp only [makeMove, hleg, hsp, if_true, Option.isSome_none, Bool.false_eq_true,
      if_false, hap, hga]
    rw [if_pos (hle.mpr htot)]
    rcases hpl with h1 | h1
    · have : updScore s3.scores (s3.nextPlayer - 1) (qadd a1.score a2.score) =
          some (qadd s3.scores.1 (qadd a1.score a2.score), s3.scores.2) := by
        rw [hnp, h1]
        simp [updScore]
      rw [this]
      simp only [Option.some.injEq]
      rw [hnp, if_pos h1, qadd_eq, qadd_eq]
    · have : updScore s3.scores (s3.nextPlayer - 1) (qadd a1.score a2.score) =
          some (s3.scores.1, qadd s3.scores.2 (qadd a1.score a2.score)) := by
        rw [hnp, h1]
        norm_num [updScore]
      rw [this]
      simp only [Option.some.injEq]
      rw [hnp, if_neg (by rw [h1]; norm_num), qadd_eq, qadd_eq]
  · intro htot hown
    simp only [makeMove, hleg, hsp, if_true, Option.isSome_none, Bool.false_eq_true,
      if_false, hap, hga]
    rw [if_neg (fun hcon => htot (hle.mp hcon))]
    rw [hnp, hown]
    simp
  · intro htot hown
    simp only [makeMove, hleg, hsp, if_true, Option.isSome_none, Bool.false_eq_true,
      if_false, hap, hga]
    rw [if_neg (fun hcon => htot (hle.mp hcon))]
    rw [hnp, hown]
    simp

theorem claimC3_witness :
    ∃ (s3 : GameState) (nl : GameLine),
      applySplits initialState move1 = some (s3, nl) ∧
      makeMove initialState move1 = some { s3 with nextPlayer := 3 - initialState.nextPlayer } := by
  cases hap : applySplits initialState move1 with
  | none =>
    have h : (applySplits initialState move1).isSome = true := by decide
    rw [hap] at h
    simp at h
  | some pr =>
    obtain ⟨s3, nl⟩ := pr
    have hb : ((applySplits initialState move1).bind fun p =>
        getAreas p.1 p.2 p.1.nextPlayer).isSome = true := by decide
    rw [hap] at hb
    simp only [Option.some_bind] at hb
    cases hga : getAreas s3 nl s3.nextPlayer with
    | none => rw [hga] at hb; simp at hb
    | some ab =>
      obtain ⟨a1, a2⟩ := ab
      have hqle : ((applySplits initialState move1).bind fun p =>
          (getAreas p.1 p.2 p.1.nextPlayer).map fun ab =>
            qleB (qadd ab.1.score ab.2.score) p.1.minScore) = some false := by decide
      rw [hap] at hqle
      simp only [Option.some_bind] at hqle
      rw [hga] at hqle
      simp only [Option.map_some', Option.some.injEq] at hqle
      have htot : ¬ a1.score + a2.score ≤ initialState.minScore := by
        intro hcon
        have hmin := (applySplits_fields _ _ _ _ hap).2.1
        have : qleB (qadd a1.score a2.score) s3.minScore = true := by
          rw [qleB_eq_true, qadd_eq, hmin]
          exact hcon
        rw [this] at hqle
        simp at hqle
      have hown : ownColors move1 initialState.nextPlayer = false := by decide
      exact ⟨s3, nl, rfl,
        (claimC3 initialState move1 s3 nl a1 a2 (by decide) rfl (Or.inl rfl) hap hga).2.2
          htot hown⟩


theorem point_eq_iff (p q : GamePoint) : p = q ↔ (p.x = q.x ∧ p.y = q.y) := by
  cases p; cases q; simp

theorem isAt_false_iff (p q : GamePoint) : p.isAt q = false ↔ ¬ p = q := by
  rw [← isAt_iff]
  simp

theorem cond1_iff (p1 p2 : GamePoint) (l : GameLine) :
    (!(p1.isAt l.p1 || p1.isAt l.p2 || p2.isAt l.p1 || p2.isAt l.p2)) = true ↔
      (p1 ≠ l.p1 ∧ p1 ≠ l.p2 ∧ p2 ≠ l.p1 ∧ p2 ≠ l.p2) := by
  simp [isAt_false_iff, not_or, and_assoc]

theorem cond2_iff (m : GameMove) (p1 p2 : GamePoint) (l : GameLine) :
    (!((decide (m.p1Line = some l) || decide (m.p2Line = some l)) &&
        decide ((mkTempLine p1 p2).slope = l.slope))) = true ↔
      ((m.p1Line = some l ∨ m.p2Line = some l) → (mkTempLine p1 p2).slope ≠ l.slope) := by
  simp [not_and, not_or]
  tauto

theorem cond3_iff (m : GameMove) (p1 p2 : GamePoint) (l : GameLine) :
    (!(((mkTempLine p1 p2).inter l).isSome &&
        !decide (m.p1Line = some l) && !decide (m.p2Line = some l))) = true ↔
      (m.p1Line ≠ some l → m.p2Line ≠ some l → (mkTempLine p1 p2).inter l = none) := by
  generalize (mkTempLine p1 p2).inter l = o
  cases o
  · simp
  · simp
    tauto

theorem claimC2 (s : GameState) (m : GameMove) (hm : m.area = none) :
    isLegalMove s m = true ↔
      (s.areaSplitLine = none ∧ ∃ p1 p2 : GamePoint, m.p1 = some p1 ∧ m.p2 = some p2 ∧
        (∀ l ∈ s.lines, p1 ≠ l.p1 ∧ p1 ≠ l.p2 ∧ p2 ≠ l.p1 ∧ p2 ≠ l.p2) ∧
        (∀ l ∈ s.lines, (m.p1Line = some l ∨ m.p2Line = some l) →
          (mkTempLine p1 p2).slope ≠ l.slope) ∧
        (∀ l ∈ s.lines, m.p1Line ≠ some l → m.p2Line ≠ some l →
          (mkTempLine p1 p2).inter l = none) ∧
        (∀ ar ∈ s.areas, areaContains s ar ((mkTempLine p1 p2).midpoint) [] = false)) := by
  have hlm : m.lineMove = true := by simp [GameMove.lineMove, hm]
  cases hsp : s.areaSplitLine with
  | some sl =>
    simp only [isLegalMove, hlm, Bool.not_true, Bool.false_eq_true, if_false, hsp,
      Option.isSome_some, if_true]
    simp
  | none =>
    simp only [isLegalMove, hlm, Bool.not_true, Bool.false_eq_true, if_false, hsp,
      Option.isSome_none, if_true]
    cases hp1 : m.p1 with
    | none => simp
    | some p1 =>
      cases hp2 : m.p2 with
      | none => simp
      | some p2 =>
        rw [Bool.and_eq_true, List.all_eq_true, List.all_eq_true]
        constructor
        · rintro ⟨hlines, hareas⟩
          refine ⟨trivial, p1, p2, rfl, rfl, ?_, ?_, ?_, ?_⟩
          · intro l hl
            have h := hlines l hl
            rw [Bool.and_eq_true, Bool.and_eq_true] at h
            exact (cond1_iff p1 p2 l).mp h.1.1
          · intro l hl
            have h := hlines l hl
            rw [Bool.and_eq_true, Bool.and_eq_true] at h
            exact (cond2_iff m p1 p2 l).mp h.1.2
          · intro l hl
            have h := hlines l hl
            rw [Bool.and_eq_true, Bool.and_eq_true] at h
            exact (cond3_iff m p1 p2 l).mp h.2
          · intro ar har
            have h := hareas ar har
            rwa [Bool.not_eq_true'] at h
        · rintro ⟨-, q1, q2, hq1, hq2, h1, h2, h3, h4⟩
          injection hq1 with hq1
          injection hq2 with hq2
          subst hq1
          subst hq2
          refine ⟨fun l hl => ?_, fun ar har => ?_⟩
          · rw [Bool.and_eq_true, Bool.and_eq_true]
            exact ⟨⟨(cond1_iff p1 p2 l).mpr (h1 l hl), (cond2_iff m p1 p2 l).mpr (h2 l hl)⟩,
                   (cond3_iff m p1 p2 l).mpr (h3 l hl)⟩
          · rw [Bool.not_eq_true']
            exact h4 ar har

theorem claimC2_witness : isLegalMove initialState move1 = true :=
  (claimC2 initialState move1 rfl).mpr
    ⟨rfl, ⟨2, 0⟩, ⟨2, 10⟩, rfl, rfl, by decide, by decide, by decide, by decide⟩

/-- C6: whenever get_areas returns a pair, the sorted positions i1 < i2 of
the split line's endpoints among the n visible points cut them into a
first area with vertex list points[i1..i2] and a second with
points[0..i1] ++ points[i2..], whose lengths sum to n + 2; and whenever
either arc has fewer than 3 points, get_areas returns None. -/
theorem claimC6 :
    (∀ (s : GameState) (split : GameLine) (c : ℤ) (a1 a2 : GameArea),
        getAreas s split c = some (a1, a2) →
        idxA s split < idxB s split ∧
        a1.points = arcOne s split ∧ a2.points = arcTwo s split ∧
        a1.points.length + a2.points.length = (sortedVisible s split).length + 2) ∧
    (∀ (s : GameState) (split : GameLine) (c : ℤ),
        ((arcOne s split).length < 3 ∨ (arcTwo s split).length < 3) →
        getAreas s split c = none) := by
  constructor
  · intro s split c a1 a2 h
    rw [getAreas] at h
    split_ifs at h with hmem hlen
    rw [Option.some.injEq, Prod.mk.injEq] at h
    obtain ⟨h1, h2⟩ := h
    subst h1
    subst h2
    rw [Bool.and_eq_true, decide_eq_true_eq, decide_eq_true_eq] at hmem
    rw [Bool.or_eq_true, decide_eq_true_eq, decide_eq_true_eq, not_or] at hlen
    obtain ⟨hm1, hm2⟩ := hmem
    obtain ⟨hl1, hl2⟩ := hlen
    have hj1 : (sortedVisible s split).findIdx (fun z => decide (z = split.p1)) <
        (sortedVisible s split).length := by
      apply List.findIdx_lt_length_of_exists
      exact ⟨split.p1, hm1, by simp⟩
    have hj2 : (sortedVisible s split).findIdx (fun z => decide (z = split.p2)) <
        (sortedVisible s split).length := by
      apply List.findIdx_lt_length_of_exists
      exact ⟨split.p2, hm2, by simp⟩
    have hiA : idxA s split < (sortedVisible s split).length := by
      rw [idxA]
      omega
    have hiB : idxB s split < (sortedVisible s split).length := by
      rw [idxB]
      omega
    have hone : (arcOne s split).length =
        min (idxB s split + 1 - idxA s split)
          ((sortedVisible s split).length - idxA s split) := by
      rw [arcOne, List.length_take, List.length_drop]
    have htwo : (arcTwo s split).length =
        min (idxA s split + 1) (sortedVisible s split).length +
          ((sortedVisible s split).length - idxB s split) := by
      rw [arcTwo, List.length_append, List.length_take, List.length_drop]
    have hAB : idxA s split ≤ idxB s split := by
      rw [idxA, idxB]
      omega
    have hlt : idxA s split < idxB s split := by
      rcases Nat.lt_or_ge (idxA s split) (idxB s split) with h | h
      · exact h
      · exfalso
        have heq : idxA s split = idxB s split := by omega
        rw [hone, ← heq] at hl1
        omega
    refine ⟨hlt, rfl, rfl, ?_⟩
    simp only [GameArea.points]
    rw [hone, htwo]
    omega
  · intro s split c h
    rw [getAreas]
    split_ifs with hmem hlen
    · rfl
    · exact absurd (by simpa using h) hlen
    · rfl

theorem claimC6_witness :
    getAreas stateW diagL 1 =
      some (⟨arcOne stateW diagL, some 1⟩, ⟨arcTwo stateW diagL, some 1⟩) ∧
    (⟨arcOne stateW diagL, some 1⟩ : GameArea).points.length +
      (⟨arcTwo stateW diagL, some 1⟩ : GameArea).points.length =
      (sortedVisible stateW diagL).length + 2 :=
  ⟨by decide, (claimC6.1 stateW diagL 1 _ _ (by decide)).2.2.2⟩

theorem gdist_comm (p q : GamePoint) : GamePoint.dist p q = GamePoint.dist q p := by
  unfold GamePoint.dist
  congr 1
  ring

theorem gdist_nonneg (p q : GamePoint) : 0 ≤ GamePoint.dist p q := Real.sqrt_nonneg _

theorem dist_param (a b p : GamePoint) (t : ℚ)
    (hx : p.x - a.x = t * (b.x - a.x)) (hy : p.y - a.y = t * (b.y - a.y)) :
    GamePoint.dist a p = |(t : ℝ)| * GamePoint.dist a b := by
  have hxR : ((p.x : ℝ)) - (a.x : ℝ) = (t : ℝ) * ((b.x : ℝ) - (a.x : ℝ)) := by
    exact_mod_cast hx
  have hyR : ((p.y : ℝ)) - (a.y : ℝ) = (t : ℝ) * ((b.y : ℝ) - (a.y : ℝ)) := by
    exact_mod_cast hy
  unfold GamePoint.dist
  have hin : ((a.y : ℝ) - (p.y : ℝ)) ^ 2 + ((a.x : ℝ) - (p.x : ℝ)) ^ 2 =
      (t : ℝ) ^ 2 * (((a.y : ℝ) - (b.y : ℝ)) ^ 2 + ((a.x : ℝ) - (b.x : ℝ)) ^ 2) := by
    linear_combination (((p.y : ℝ)) - (a.y : ℝ) + (t : ℝ) * ((b.y : ℝ) - (a.y : ℝ))) * hyR +
      (((p.x : ℝ)) - (a.x : ℝ) + (t : ℝ) * ((b.x : ℝ) - (a.x : ℝ))) * hxR
  rw [hin, Real.sqrt_mul (sq_nonneg _), Real.sqrt_sq_eq_abs]

theorem interPt_onLine (l1 l2 : GameLine)
    (hD : qsub (qmul l1.A l2.B) (qmul l1.B l2.A) ≠ 0) :
    onLine l1 (interPt l1 l2) ∧ onLine l2 (interPt l1 l2) := by
  rw [qsub_eq, qmul_eq, qmul_eq] at hD
  constructor
  · unfold onLine interPt
    simp only [qdiv_eq, qsub_eq, qmul_eq]
    field_simp
    ring
  · unfold onLine interPt
    simp only [qdiv_eq, qsub_eq, qmul_eq]
    field_simp
    ring

theorem tparam_spec (l : GameLine) (p : GamePoint) (hne : l.p1 ≠ l.p2) (h : onLine l p) :
    p.x - l.p1.x = l.tparam p * (l.p2.x - l.p1.x) ∧
    p.y - l.p1.y = l.tparam p * (l.p2.y - l.p1.y) := by
  unfold onLine at h
  rw [GameLine.A, GameLine.B, GameLine.C] at h
  simp only [qsub_eq, qneg_eq, qmul_eq] at h
  unfold GameLine.tparam
  split_ifs with hx
  · have hy : l.p1.y ≠ l.p2.y := by
      intro hyc
      exact hne ((point_eq_iff l.p1 l.p2).mpr ⟨hx, hyc⟩)
    have hy' : l.p2.y - l.p1.y ≠ 0 := sub_ne_zero.mpr (Ne.symm hy)
    constructor
    · have hpx : p.x = l.p1.x := by
        have h2 : (l.p1.y - l.p2.y) * p.x = (l.p1.y - l.p2.y) * l.p1.x := by
          rw [← hx] at h
          linear_combination h
        have h3 : l.p1.y - l.p2.y ≠ 0 := sub_ne_zero.mpr hy
        exact mul_left_cancel₀ h3 h2
      rw [qdiv_eq, qsub_eq, qsub_eq, hpx, ← hx]
      ring
    · rw [qdiv_eq, qsub_eq, qsub_eq]
      field_simp
  · have hx' : l.p2.x - l.p1.x ≠ 0 := sub_ne_zero.mpr (Ne.symm hx)
    constructor
    · rw [qdiv_eq, qsub_eq, qsub_eq]
      field_simp
    · rw [qdiv_eq, qsub_eq, qsub_eq]
      rw [div_mul_eq_mul_div, eq_div_iff hx']
      linear_combination h

theorem qmax_eq (a b : ℚ) : qmax a b = max a b := by
  unfold qmax
  split_ifs with h
  · rw [qleB_eq_true] at h
    exact (max_eq_right h).symm
  · have h2 : ¬ a ≤ b := fun hc => h ((qleB_eq_true a b).mpr hc)
    exact (max_eq_left (le_of_not_le h2)).symm

theorem dsq_cast (p q : GamePoint) :
    ((GamePoint.dsq p q : ℚ) : ℝ) =
      ((p.y : ℝ) - (q.y : ℝ)) ^ 2 + ((p.x : ℝ) - (q.x : ℝ)) ^ 2 := by
  unfold GamePoint.dsq
  rw [qadd_eq, qmul_eq, qmul_eq, qsub_eq, qsub_eq]
  push_cast
  ring

theorem dist_eq_sqrt_dsq (p q : GamePoint) :
    GamePoint.dist p q = Real.sqrt ((GamePoint.dsq p q : ℚ) : ℝ) := by
  unfold GamePoint.dist
  rw [dsq_cast]

theorem containsR_iff_containsB (l : GameLine) (p : GamePoint) (h : onLine l p) :
    l.containsR p ↔ l.containsB p = true := by
  unfold GameLine.containsR GameLine.containsB
  split_ifs with hdeg
  · have hlen : l.lengthR = 0 := by
      unfold GameLine.lengthR
      rw [hdeg, dist_eq_sqrt_dsq]
      have : GamePoint.dsq l.p2 l.p2 = 0 := by
        unfold GamePoint.dsq
        rw [qadd_eq, qmul_eq, qmul_eq, qsub_eq]
        ring_nf
        simp [qsub_eq]
      rw [this]
      simp
    have hdd : GamePoint.dist l.p2 p = GamePoint.dist l.p1 p := by rw [hdeg]
    have hd0 : (0 : ℝ) ≤ GamePoint.dist l.p1 p := gdist_nonneg _ _
    rw [hlen, hdd, qleB_eq_true]
    have habs : |GamePoint.dist l.p1 p + GamePoint.dist l.p1 p - 0| =
        2 * GamePoint.dist l.p1 p := by
      rw [abs_of_nonneg (by linarith)]
      ring
    rw [habs]
    have hd1 : GamePoint.dist l.p1 p = Real.sqrt ((GamePoint.dsq p l.p1 : ℚ) : ℝ) := by
      rw [dist_eq_sqrt_dsq]
      congr 1
      rw [dsq_cast, dsq_cast]
      ring
    rw [hd1]
    constructor
    · intro hle
      have h2 : Real.sqrt ((GamePoint.dsq p l.p1 : ℚ) : ℝ) ≤ 1 / 200 := by linarith
      have h3 := (Real.sqrt_le_left (by norm_num : (0:ℝ) ≤ 1/200)).mp h2
      have h4 : ((GamePoint.dsq p l.p1 : ℚ) : ℝ) ≤ ((mkRat 1 40000 : ℚ) : ℝ) := by
        rw [Rat.mkRat_eq_div]
        push_cast
        nlinarith [h3]
      exact_mod_cast h4
    · intro hle
      have h4 : ((GamePoint.dsq p l.p1 : ℚ) : ℝ) ≤ ((mkRat 1 40000 : ℚ) : ℝ) := by
        exact_mod_cast hle
      have h5 : ((GamePoint.dsq p l.p1 : ℚ) : ℝ) ≤ (1/200 : ℝ) ^ 2 := by
        rw [Rat.mkRat_eq_div] at h4
        push_cast at h4
        nlinarith [h4]
      have h6 := (Real.sqrt_le_left (by norm_num : (0:ℝ) ≤ 1/200)).mpr h5
      linarith
  · obtain ⟨hx, hy⟩ := tparam_spec l p hdeg h
    have hd1 : GamePoint.dist l.p1 p = |(l.tparam p : ℝ)| * GamePoint.dist l.p1 l.p2 :=
      dist_param l.p1 l.p2 p (l.tparam p) hx hy
    have hx2 : p.x - l.p2.x = (1 - l.tparam p) * (l.p1.x - l.p2.x) := by
      linear_combination hx
    have hy2 : p.y - l.p2.y = (1 - l.tparam p) * (l.p1.y - l.p2.y) := by
      linear_combination hy
    have hd2 : GamePoint.dist l.p2 p = |(l.tparam p : ℝ) - 1| * GamePoint.dist l.p1 l.p2 := by
      have hdd := dist_param l.p2 l.p1 p (1 - l.tparam p) hx2 hy2
      rw [hdd, gdist_comm l.p2 l.p1]
      congr 1
      rw [← abs_neg]
      congr 1
      push_cast
      ring
    have hL0 : (0 : ℝ) ≤ GamePoint.dist l.p1 l.p2 := gdist_nonneg _ _
    have hfac : (0 : ℝ) ≤ |(l.tparam p : ℝ)| + |(l.tparam p : ℝ) - 1| - 1 := by
      have h1 : |(l.tparam p : ℝ) - ((l.tparam p : ℝ) - 1)| ≤
          |(l.tparam p : ℝ)| + |(l.tparam p : ℝ) - 1| := abs_sub _ _
      have h2 : |(l.tparam p : ℝ) - ((l.tparam p : ℝ) - 1)| = 1 := by
        norm_num
      linarith
    have hgq : |l.tparam p| + |l.tparam p - 1| - 1 =
        qmul 2 (qmax 0 (qmax (qneg (l.tparam p)) (qsub (l.tparam p) 1))) := by
      rw [qmul_eq, qmax_eq, qmax_eq, qneg_eq, qsub_eq]
      rcases le_total (l.tparam p) 0 with h0 | h0
      · rw [abs_of_nonpos h0, abs_of_nonpos (by linarith),
          max_eq_left (by linarith : l.tparam p - 1 ≤ -l.tparam p),
          max_eq_right (by linarith : (0:ℚ) ≤ -l.tparam p)]
        ring
      · rcases le_total (l.tparam p) 1 with h1 | h1
        · rw [abs_of_nonneg h0, abs_of_nonpos (by linarith),
            max_eq_left (max_le (by linarith) (by linarith) :
              max (-l.tparam p) (l.tparam p - 1) ≤ 0)]
          ring
        · rw [abs_of_nonneg h0, abs_of_nonneg (by linarith : (0:ℚ) ≤ l.tparam p - 1),
            max_eq_right (by linarith : -l.tparam p ≤ l.tparam p - 1),
            max_eq_right (by linarith : (0:ℚ) ≤ l.tparam p - 1)]
          ring
    rw [qleB_eq_true]
    have hlenL : l.lengthR = GamePoint.dist l.p1 l.p2 := rfl
    have hfactor : GamePoint.dist l.p1 p + GamePoint.dist l.p2 p - l.lengthR =
        (|(l.tparam p : ℝ)| + |(l.tparam p : ℝ) - 1| - 1) * GamePoint.dist l.p1 l.p2 := by
      rw [hd1, hd2, hlenL]
      ring
    rw [hfactor, abs_of_nonneg (mul_nonneg hfac hL0)]
    have hgR : |(l.tparam p : ℝ)| + |(l.tparam p : ℝ) - 1| - 1 =
        ((qmul 2 (qmax 0 (qmax (qneg (l.tparam p)) (qsub (l.tparam p) 1))) : ℚ) : ℝ) := by
      rw [← hgq]
      push_cast
      ring
    rw [hgR, dist_eq_sqrt_dsq]
    set gq := qmul 2 (qmax 0 (qmax (qneg (l.tparam p)) (qsub (l.tparam p) 1))) with hgdef
    have hgq0 : (0 : ℝ) ≤ ((gq : ℚ) : ℝ) := by
      rw [← hgR]
      exact hfac
    have hsqrt : ((gq : ℚ) : ℝ) * Real.sqrt ((GamePoint.dsq l.p1 l.p2 : ℚ) : ℝ) =
        Real.sqrt ((((gq : ℚ) : ℝ)) ^ 2 * ((GamePoint.dsq l.p1 l.p2 : ℚ) : ℝ)) := by
      rw [Real.sqrt_mul (sq_nonneg _), Real.sqrt_sq hgq0]
    rw [hsqrt]
    constructor
    · intro hle
      have h3 := (Real.sqrt_le_left (by norm_num : (0 : ℝ) ≤ 1 / 100)).mp hle
      have hfin : ((qmul (qmul gq gq) (GamePoint.dsq l.p1 l.p2) : ℚ) : ℝ) ≤
          ((mkRat 1 10000 : ℚ) : ℝ) := by
        rw [qmul_eq, qmul_eq, Rat.mkRat_eq_div]
        push_cast
        nlinarith [h3]
      exact_mod_cast hfin
    · intro hle
      have hfin : ((qmul (qmul gq gq) (GamePoint.dsq l.p1 l.p2) : ℚ) : ℝ) ≤
          ((mkRat 1 10000 : ℚ) : ℝ) := by exact_mod_cast hle
      have h5 : (((gq : ℚ) : ℝ)) ^ 2 * ((GamePoint.dsq l.p1 l.p2 : ℚ) : ℝ) ≤
          (1 / 100 : ℝ) ^ 2 := by
        rw [qmul_eq, qmul_eq, Rat.mkRat_eq_div] at hfin
        push_cast at hfin
        nlinarith [hfin]
      exact (Real.sqrt_le_left (by norm_num : (0 : ℝ) ≤ 1 / 100)).mpr h5

theorem qD_eq (l1 l2 : GameLine) :
    qsub (qmul l1.A l2.B) (qmul l1.B l2.A) = l1.A * l2.B - l1.B * l2.A := by
  rw [qsub_eq, qmul_eq, qmul_eq]

theorem inter_eq_intersectionF (l1 l2 : GameLine) :
    l1.intersectionF l2 = l1.inter l2 := by
  unfold GameLine.intersectionF GameLine.inter
  by_cases hD : qsub (qmul l1.A l2.B) (qmul l1.B l2.A) ≠ 0
  · rw [if_pos hD, if_pos hD]
    obtain ⟨h1, h2⟩ := interPt_onLine l1 l2 hD
    have hiff : (l1.containsR (interPt l1 l2) ∧ l2.containsR (interPt l1 l2)) ↔
        (l1.containsB (interPt l1 l2) && l2.containsB (interPt l1 l2)) = true := by
      rw [Bool.and_eq_true]
      exact and_congr (containsR_iff_containsB l1 _ h1) (containsR_iff_containsB l2 _ h2)
    by_cases hc : l1.containsR (interPt l1 l2) ∧ l2.containsR (interPt l1 l2)
    · rw [if_pos hc, if_pos (hiff.mp hc)]
    · rw [if_neg hc, if_neg (fun hb => hc (hiff.mpr hb))]
  · rw [if_neg hD, if_neg hD]

theorem inter_symm (l1 l2 : GameLine) : l1.inter l2 = l2.inter l1 := by
  have hD : qsub (qmul l2.A l1.B) (qmul l2.B l1.A) =
      -(qsub (qmul l1.A l2.B) (qmul l1.B l2.A)) := by
    rw [qD_eq, qD_eq]
    ring
  have hP : interPt l2 l1 = interPt l1 l2 := by
    unfold interPt
    apply (point_eq_iff _ _).mpr
    constructor
    · simp only [qdiv_eq, qsub_eq, qmul_eq]
      rw [show l2.C * l1.B - l2.B * l1.C = -(l1.C * l2.B - l1.B * l2.C) from by ring,
        show l2.A * l1.B - l2.B * l1.A = -(l1.A * l2.B - l1.B * l2.A) from by ring,
        neg_div_neg_eq]
    · simp only [qdiv_eq, qsub_eq, qmul_eq]
      rw [show l2.A * l1.C - l2.C * l1.A = -(l1.A * l2.C - l1.C * l2.A) from by ring,
        show l2.A * l1.B - l2.B * l1.A = -(l1.A * l2.B - l1.B * l2.A) from by ring,
        neg_div_neg_eq]
  unfold GameLine.inter
  rw [hP, hD]
  simp only [ne_eq, neg_eq_zero]
  by_cases hD0 : qsub (qmul l1.A l2.B) (qmul l1.B l2.A) = 0
  · rw [if_neg (not_not_intro hD0), if_neg (not_not_intro hD0)]
  · rw [if_pos hD0, if_pos hD0, Bool.and_comm]

theorem intersectionF_symm (l1 l2 : GameLine) :
    l1.intersectionF l2 = l2.intersectionF l1 := by
  rw [inter_eq_intersectionF, inter_eq_intersectionF, inter_symm]

/-- C10: segment intersection is symmetric: the two orders return None
together, and when both return a point the coordinates agree (D and both
numerators are negated by the swap, leaving the quotients unchanged). -/
theorem claimC10 (l1 l2 : GameLine) :
    (l1.intersectionF l2 = none ↔ l2.intersectionF l1 = none) ∧
    (∀ p q : GamePoint, l1.intersectionF l2 = some p → l2.intersectionF l1 = some q →
      p.x = q.x ∧ p.y = q.y) := by
  constructor
  · rw [intersectionF_symm]
  · intro p q hp hq
    rw [intersectionF_symm] at hp
    rw [hp] at hq
    injection hq with hq
    rw [hq]
    exact ⟨rfl, rfl⟩

theorem claimC10_witness : (⟨5, 5⟩ : GamePoint).x = (⟨5, 5⟩ : GamePoint).x ∧
    (⟨5, 5⟩ : GamePoint).y = (⟨5, 5⟩ : GamePoint).y :=
  (claimC10 diagL diagM).2 ⟨5, 5⟩ ⟨5, 5⟩
    (by rw [inter_eq_intersectionF]; decide)
    (by rw [inter_eq_intersectionF]; decide)

/-- C8: with D = A1*B2 - B1*A2, intersection returns None when D = 0;
when D is nonzero the candidate is the exact solution point (Dx/D, Dy/D)
of the 2x2 system, returned exactly when both segments contain it and None
otherwise; and contains(line, p) holds iff the sum of the distances from p
to the two endpoints differs from the segment length by at most 1/100. -/
theorem claimC8 :
    (∀ l1 l2 : GameLine,
      (l1.A * l2.B - l1.B * l2.A = 0 → l1.intersectionF l2 = none) ∧
      (l1.A * l2.B - l1.B * l2.A ≠ 0 →
        interPt l1 l2 = ⟨(l1.C * l2.B - l1.B * l2.C) / (l1.A * l2.B - l1.B * l2.A),
                         (l1.A * l2.C - l1.C * l2.A) / (l1.A * l2.B - l1.B * l2.A)⟩ ∧
        ((l1.containsR (interPt l1 l2) ∧ l2.containsR (interPt l1 l2)) →
          l1.intersectionF l2 = some (interPt l1 l2)) ∧
        (¬ (l1.containsR (interPt l1 l2) ∧ l2.containsR (interPt l1 l2)) →
          l1.intersectionF l2 = none))) ∧
    (∀ (l : GameLine) (p : GamePoint),
      l.containsR p ↔ |GamePoint.dist l.p1 p + GamePoint.dist l.p2 p - l.lengthR| ≤ 1 / 100) := by
  constructor
  · intro l1 l2
    constructor
    · intro h0
      have hq : qsub (qmul l1.A l2.B) (qmul l1.B l2.A) = 0 := by
        rw [qD_eq]
        exact h0
      unfold GameLine.intersectionF
      rw [if_neg (not_not_intro hq)]
    · intro h0
      have hq : qsub (qmul l1.A l2.B) (qmul l1.B l2.A) ≠ 0 := by
        rw [qD_eq]
        exact h0
      refine ⟨?_, ?_, ?_⟩
      · apply (point_eq_iff _ _).mpr
        constructor
        · simp only [interPt, qdiv_eq, qsub_eq, qmul_eq]
        · simp only [interPt, qdiv_eq, qsub_eq, qmul_eq]
      · intro hc
        unfold GameLine.intersectionF
        rw [if_pos hq, if_pos hc]
      · intro hc
        unfold GameLine.intersectionF
        rw [if_pos hq, if_neg hc]
  · intro l p
    exact Iff.rfl

theorem claimC8_witness : bL1.intersectionF bL3 = none :=
  (claimC8.1 bL1 bL3).1 (by rw [← qD_eq]; decide)

theorem keyLeB_eq_thetaR_le (m p q : GamePoint) :
    keyLeB m p q = true ↔ thetaR m p ≤ thetaR m q := by
  have ha1 := Real.arctan_lt_pi_div_two ((thetaFrac m p : ℚ) : ℝ)
  have ha2 := Real.neg_pi_div_two_lt_arctan ((thetaFrac m q : ℚ) : ℝ)
  have ha3 := Real.arctan_lt_pi_div_two ((thetaFrac m q : ℚ) : ℝ)
  have ha4 := Real.neg_pi_div_two_lt_arctan ((thetaFrac m p : ℚ) : ℝ)
  have hpi := Real.pi_pos
  unfold keyLeB thetaR
  cases hp : shiftB m p with
  | false =>
    cases hq : shiftB m q with
    | false =>
      simp only [Bool.not_false, Bool.and_false, Bool.false_or, beq_self_eq_true,
        Bool.true_and, if_false, Bool.false_eq_true, add_zero, qleB_eq_true]
      rw [Real.arctan_strictMono.le_iff_le]
      exact Iff.symm Rat.cast_le
    | true =>
      simp [qleB_eq_true]
      linarith
  | true =>
    cases hq : shiftB m q with
    | false =>
      simp [qleB_eq_true]
      linarith
    | true =>
      simp [qleB_eq_true]
      rw [Real.arctan_strictMono.le_iff_le]
      exact Iff.symm Rat.cast_le

theorem mem_updAdj (f : GamePoint → List GameLine) (a : GamePoint) (n : GameLine)
    (r : GamePoint) (l : GameLine) :
    l ∈ updAdj f a n r ↔ (l ∈ f r ∨ (r = a ∧ l = n)) := by
  unfold updAdj
  split_ifs with h
  · simp [h]
  · simp [h]

theorem nodup_updAdj (f : GamePoint → List GameLine) (a : GamePoint) (n : GameLine)
    (r : GamePoint) (hnd : (f r).Nodup) (hn : r = a → n ∉ f r) :
    (updAdj f a n r).Nodup := by
  unfold updAdj
  split_ifs with h
  · simp [List.nodup_append, hnd, hn h]
  · exact hnd

theorem mem_eraseAdj (f : GamePoint → List GameLine) (a : GamePoint) (o : GameLine)
    (r : GamePoint) (l : GameLine) (hnd : (f r).Nodup) :
    l ∈ eraseAdj f a o r ↔ (l ∈ f r ∧ (r = a → l ≠ o)) := by
  unfold eraseAdj
  split_ifs with h
  · rw [hnd.mem_erase_iff]
    constructor
    · rintro ⟨h1, h2⟩
      exact ⟨h2, fun _ => h1⟩
    · rintro ⟨h1, h2⟩
      exact ⟨h2 h, h1⟩
  · constructor
    · intro h1
      exact ⟨h1, fun hc => absurd hc h⟩
    · intro h1
      exact h1.1

theorem nodup_eraseAdj (f : GamePoint → List GameLine) (a : GamePoint) (o : GameLine)
    (r : GamePoint) (hnd : (f r).Nodup) :
    (eraseAdj f a o r).Nodup := by
  unfold eraseAdj
  split_ifs with h
  · exact hnd.erase o
  · exact hnd

theorem splitLine_inv (s : GameState) (old : GameLine) (np : GamePoint) (t : GameState)
    (hinv : InvState s)
    (hfr : ∀ l ∈ s.lines, np ≠ l.p1 ∧ np ≠ l.p2)
    (h : splitLine s old np = some t) :
    old ∈ s.lines ∧ InvState t ∧
    (∀ l : GameLine, l ∈ t.lines ↔
      ((l ∈ s.lines ∧ l ≠ old) ∨ l = ⟨old.p1, np, old.color⟩ ∨ l = ⟨old.p2, np, old.color⟩)) := by
  obtain ⟨hndL, hppAll, hndA, hadjC⟩ := hinv
  simp only [splitLine] at h
  split_ifs at h with h1 h2 h3
  injection h with h
  subst h
  have hold : old ∈ s.lines := of_decide_eq_true h1
  have hpp : old.p1 ≠ old.p2 := hppAll old hold
  have hnp1 : np ≠ old.p1 := (hfr old hold).1
  have hnp2 : np ≠ old.p2 := (hfr old hold).2
  set n1 : GameLine := ⟨old.p1, np, old.color⟩ with hn1def
  set n2 : GameLine := ⟨old.p2, np, old.color⟩ with hn2def
  have hn1s : n1 ∉ s.lines := fun hc => (hfr n1 hc).2 rfl
  have hn2s : n2 ∉ s.lines := fun hc => (hfr n2 hc).2 rfl
  have hn1old : n1 ≠ old := fun hc => hnp2 (congrArg GameLine.p2 hc)
  have hn2old : n2 ≠ old := fun hc => hpp (congrArg GameLine.p1 hc).symm
  have hn12 : n1 ≠ n2 := fun hc => hpp (congrArg GameLine.p1 hc)
  have hn1adj : ∀ r, n1 ∉ s.adj r := fun r hc => hn1s ((hadjC r n1).mp hc).1
  have hn2adj : ∀ r, n2 ∉ s.adj r := fun r hc => hn2s ((hadjC r n2).mp hc).1
  set g1 : GamePoint → List GameLine := updAdj s.adj old.p1 n1 with hg1
  set g2 : GamePoint → List GameLine := updAdj g1 np n1 with hg2
  set g3 : GamePoint → List GameLine := eraseAdj g2 old.p1 old with hg3
  set g4 : GamePoint → List GameLine := updAdj g3 old.p2 n2 with hg4
  set g5 : GamePoint → List GameLine := updAdj g4 np n2 with hg5
  have hm1 : ∀ r l, l ∈ g1 r ↔ (l ∈ s.adj r ∨ (r = old.p1 ∧ l = n1)) :=
    fun r l => mem_updAdj s.adj old.p1 n1 r l
  have hm2 : ∀ r l, l ∈ g2 r ↔ ((l ∈ s.adj r ∨ (r = old.p1 ∧ l = n1)) ∨ (r = np ∧ l = n1)) :=
    fun r l => (mem_updAdj g1 np n1 r l).trans (or_congr_left (hm1 r l))
  have hnd1 : ∀ r, (g1 r).Nodup :=
    fun r => nodup_updAdj s.adj old.p1 n1 r (hndA r) (fun _ => hn1adj r)
  have hnd2 : ∀ r, (g2 r).Nodup := by
    intro r
    refine nodup_updAdj g1 np n1 r (hnd1 r) (fun hr hc => ?_)
    rcases (hm1 r n1).mp hc with hx | hx
    · exact hn1adj r hx
    · exact hnp1 (hr ▸ hx.1)
  have hm3 : ∀ r l, l ∈ g3 r ↔
      (((l ∈ s.adj r ∨ (r = old.p1 ∧ l = n1)) ∨ (r = np ∧ l = n1)) ∧ (r = old.p1 → l ≠ old)) :=
    fun r l => (mem_eraseAdj g2 old.p1 old r l (hnd2 r)).trans (and_congr_left fun _ => hm2 r l)
  have hnd3 : ∀ r, (g3 r).Nodup := fun r => nodup_eraseAdj g2 old.p1 old r (hnd2 r)
  have hn2g3 : ∀ r, n2 ∉ g3 r := by
    intro r hc
    rcases ((hm3 r n2).mp hc).1 with (hx | hx) | hx
    · exact hn2adj r hx
    · exact hn12 hx.2.symm
    · exact hn12 hx.2.symm
  have hm4 : ∀ r l, l ∈ g4 r ↔ (l ∈ g3 r ∨ (r = old.p2 ∧ l = n2)) :=
    fun r l => mem_updAdj g3 old.p2 n2 r l
  have hnd4 : ∀ r, (g4 r).Nodup :=
    fun r => nodup_updAdj g3 old.p2 n2 r (hnd3 r) (fun _ => hn2g3 r)
  have hm5 : ∀ r l, l ∈ g5 r ↔ ((l ∈ g3 r ∨ (r = old.p2 ∧ l = n2)) ∨ (r = np ∧ l = n2)) :=
    fun r l => (mem_updAdj g4 np n2 r l).trans (or_congr_left (hm4 r l))
  have hnd5 : ∀ r, (g5 r).Nodup := by
    intro r
    refine nodup_updAdj g4 np n2 r (hnd4 r) (fun hr hc => ?_)
    rcases (hm4 r n2).mp hc with hx | hx
    · exact hn2g3 r hx
    · exact hnp2 (hr ▸ hx.1)
  have hm6 : ∀ r l, l ∈ eraseAdj g5 old.p2 old r ↔
      ((((l ∈ g3 r ∨ (r = old.p2 ∧ l = n2)) ∨ (r = np ∧ l = n2)) ∧ (r = old.p2 → l ≠ old))) :=
    fun r l => (mem_eraseAdj g5 old.p2 old r l (hnd5 r)).trans (and_congr_left fun _ => hm5 r l)
  have hnd6 : ∀ r, (eraseAdj g5 old.p2 old r).Nodup :=
    fun r => nodup_eraseAdj g5 old.p2 old r (hnd5 r)
  have hLiff : ∀ l : GameLine, l ∈ (s.lines.erase old) ++ [n1, n2] ↔
      ((l ∈ s.lines ∧ l ≠ old) ∨ l = n1 ∨ l = n2) := by
    intro l
    rw [List.mem_append, hndL.mem_erase_iff]
    simp only [List.mem_cons, List.not_mem_nil, or_false]
    tauto
  refine ⟨hold, ⟨?_, ?_, hnd6, ?_⟩, hLiff⟩
  · -- Nodup of the new line list
    rw [List.nodup_append]
    refine ⟨hndL.erase old, ?_, ?_⟩
    · simp [hn12]
    · intro l hl1 hl2
      have hls : l ∈ s.lines := List.mem_of_mem_erase hl1
      simp only [List.mem_cons, List.not_mem_nil, or_false] at hl2
      rcases hl2 with hx | hx
      · exact hn1s (hx ▸ hls)
      · exact hn2s (hx ▸ hls)
  · -- endpoints distinct
    intro l hl
    rcases (hLiff l).mp hl with ⟨hls, _⟩ | hx | hx
    · exact hppAll l hls
    · rw [hx]
      exact hnp1.symm
    · rw [hx]
      exact hnp2.symm
  · -- adjacency characterization
    intro q l
    rw [hm6 q l, hLiff l]
    rw [hm3 q l, hadjC q l]
    constructor
    · rintro ⟨((⟨(⟨hlin, hqe⟩ | ⟨hq, hl⟩) | ⟨hq, hl⟩, hg1⟩ | ⟨hq, hl⟩) | ⟨hq, hl⟩), hg2g⟩
      · refine ⟨Or.inl ⟨hlin, fun he => ?_⟩, hqe⟩
        rcases hqe with hq | hq
        · rw [he] at hq
          exact hg1 hq he
        · rw [he] at hq
          exact hg2g hq he
      · subst hl
        exact ⟨Or.inr (Or.inl rfl), Or.inl hq⟩
      · subst hl
        exact ⟨Or.inr (Or.inl rfl), Or.inr hq⟩
      · subst hl
        exact ⟨Or.inr (Or.inr rfl), Or.inl hq⟩
      · subst hl
        exact ⟨Or.inr (Or.inr rfl), Or.inr hq⟩
    · rintro ⟨⟨hlin, hne⟩ | hl | hl, hqe⟩
      · exact ⟨Or.inl (Or.inl ⟨Or.inl (Or.inl ⟨hlin, hqe⟩), fun _ => hne⟩), fun _ => hne⟩
      · subst hl
        rcases hqe with hq | hq
        · exact ⟨Or.inl (Or.inl ⟨Or.inl (Or.inr ⟨hq, rfl⟩), fun _ => hn1old⟩), fun _ => hn1old⟩
        · exact ⟨Or.inl (Or.inl ⟨Or.inr ⟨hq, rfl⟩, fun _ => hn1old⟩), fun _ => hn1old⟩
      · subst hl
        rcases hqe with hq | hq
        · exact ⟨Or.inl (Or.inr ⟨hq, rfl⟩), fun _ => hn2old⟩
        · exact ⟨Or.inr ⟨hq, rfl⟩, fun _ => hn2old⟩

theorem applySplits_inv (s : GameState) (m : GameMove) (t : GameState) (nl : GameLine)
    (hinv : InvState s) (hfm : FreshMove s m)
    (h : applySplits s m = some (t, nl)) :
    InvState t := by
  cases hm1 : m.p1Line with
  | none => simp [applySplits, hm1] at h
  | some l1 =>
    cases hp1 : m.p1 with
    | none => simp [applySplits, hm1, hp1] at h
    | some p1 =>
      cases hs1 : splitLine s l1 p1 with
      | none => simp [applySplits, hm1, hp1, hs1] at h
      | some t1 =>
        cases hm2 : m.p2Line with
        | none => simp [applySplits, hm1, hp1, hs1, hm2] at h
        | some l2 =>
          cases hp2 : m.p2 with
          | none => simp [applySplits, hm1, hp1, hs1, hm2, hp2] at h
          | some p2 =>
            cases hs2 : splitLine t1 l2 p2 with
            | none => simp [applySplits, hm1, hp1, hs1, hm2, hp2, hs2] at h
            | some t2 =>
              simp only [applySplits, hm1, hp1, hs1, hm2, hp2, hs2, Option.some.injEq,
                Prod.mk.injEq] at h
              obtain ⟨h3, -⟩ := h
              have hfr1 : ∀ l ∈ s.lines, p1 ≠ l.p1 ∧ p1 ≠ l.p2 :=
                hfm.2.1 p1 (Or.inl hp1)
              have hfr2s : ∀ l ∈ s.lines, p2 ≠ l.p1 ∧ p2 ≠ l.p2 :=
                hfm.2.1 p2 (Or.inr hp2)
              have hl1s : l1 ∈ s.lines := hfm.2.2 l1 (Or.inl hm1)
              have hl2s : l2 ∈ s.lines := hfm.2.2 l2 (Or.inr hm2)
              have hp12 : p1 ≠ p2 := hfm.1 p1 p2 hp1 hp2
              obtain ⟨hold1, hinv1, hL1⟩ := splitLine_inv s l1 p1 t1 hinv hfr1 hs1
              have hfr2 : ∀ l ∈ t1.lines, p2 ≠ l.p1 ∧ p2 ≠ l.p2 := by
                intro l hl
                rcases (hL1 l).mp hl with ⟨hls, -⟩ | hx | hx
                · exact hfr2s l hls
                · subst hx
                  exact ⟨(hfr2s l1 hl1s).1, hp12.symm⟩
                · subst hx
                  exact ⟨(hfr2s l1 hl1s).2, hp12.symm⟩
              obtain ⟨hold2, hinv2, hL2⟩ := splitLine_inv t1 l2 p2 t2 hinv1 hfr2 hs2
              have hEndp1 : ∀ l ∈ t2.lines, p1 ≠ l.p1 := by
                intro l hl
                rcases (hL2 l).mp hl with ⟨hl1m, -⟩ | hx | hx
                · rcases (hL1 l).mp hl1m with ⟨hls, -⟩ | hy | hy
                  · exact (hfr1 l hls).1
                  · subst hy
                    exact (hfr1 l1 hl1s).1
                  · subst hy
                    exact (hfr1 l1 hl1s).2
                · subst hx
                  exact (hfr1 l2 hl2s).1
                · subst hx
                  exact (hfr1 l2 hl2s).2
              set nl0 : GameLine := ⟨p1, p2, some s.nextPlayer⟩ with hnl0
              have hnlnew : nl0 ∉ t2.lines := fun hc => hEndp1 nl0 hc rfl
              obtain ⟨hnd2, hpp2, hndA2, hC2⟩ := hinv2
              have hnladj : ∀ r, nl0 ∉ t2.adj r :=
                fun r hc => hnlnew ((hC2 r nl0).mp hc).1
              subst h3
              refine ⟨?_, ?_, ?_, ?_⟩
              · rw [List.nodup_append]
                refine ⟨hnd2, List.nodup_singleton nl0, ?_⟩
                intro l hl1m hl2m
                simp only [List.mem_singleton] at hl2m
                exact hnlnew (hl2m ▸ hl1m)
              · intro l hl
                rw [List.mem_append, List.mem_singleton] at hl
                rcases hl with hl | hl
                · exact hpp2 l hl
                · rw [hl]
                  exact hp12
              · intro q
                refine nodup_updAdj _ p2 nl0 q ?_ ?_
                · exact nodup_updAdj t2.adj p1 nl0 q (hndA2 q) (fun _ => hnladj q)
                · intro hq hc
                  rcases (mem_updAdj t2.adj p1 nl0 q nl0).mp hc with hx | hx
                  · exact hnladj q hx
                  · exact hp12 (hx.1.symm.trans hq)
              · intro q l
                rw [mem_updAdj, mem_updAdj, List.mem_append, List.mem_singleton]
                constructor
                · rintro ((hx | ⟨hq, hl⟩) | ⟨hq, hl⟩)
                  · obtain ⟨hls, hqe⟩ := (hC2 q l).mp hx
                    exact ⟨Or.inl hls, hqe⟩
                  · subst hl
                    exact ⟨Or.inr rfl, Or.inl hq⟩
                  · subst hl
                    exact ⟨Or.inr rfl, Or.inr hq⟩
                · rintro ⟨hl | hl, hqe⟩
                  · exact Or.inl (Or.inl ((hC2 q l).mpr ⟨hl, hqe⟩))
                  · subst hl
                    rcases hqe with hq | hq
                    · exact Or.inl (Or.inr ⟨hq, rfl⟩)
                    · exact Or.inr ⟨hq, rfl⟩

theorem areaBranch_inv (s : GameState) (m : GameMove) (t : GameState)
    (hinv : InvState s) (h : areaBranch s m = some t) : InvState t := by
  cases ha : m.area with
  | none => simp [areaBranch, ha] at h
  | some a =>
    cases hc : a.color with
    | none => simp [areaBranch, ha, hc] at h
    | some c =>
      cases hu : updScore s.scores (c - 1) a.score with
      | none => simp [areaBranch, ha, hc, hu] at h
      | some sc =>
        simp only [areaBranch, ha, hc, hu, Option.some.injEq] at h
        subst h
        exact hinv

theorem makeMove_inv (s : GameState) (m : GameMove) (t : GameState)
    (hinv : InvState s) (hfm : FreshMove s m) (h : makeMove s m = some t) :
    InvState t := by
  simp only [makeMove] at h
  split_ifs at h with hleg hsel
  · exact areaBranch_inv s m t hinv h
  · cases hap : applySplits s m with
    | none => simp [hap] at h
    | some pr =>
      obtain ⟨s3, nl⟩ := pr
      simp only [hap] at h
      have hinv3 := applySplits_inv s m s3 nl hinv hfm hap
      cases hga : getAreas s3 nl s3.nextPlayer with
      | none => simp [hga] at h
      | some ar =>
        obtain ⟨a1, a2⟩ := ar
        simp only [hga] at h
        split_ifs at h with hq ho
        · cases hu : updScore s3.scores (s3.nextPlayer - 1) (qadd a1.score a2.score) with
          | none => simp [hu] at h
          | some sc =>
            simp only [hu, Option.some.injEq] at h
            subst h
            exact hinv3
        · simp only [Option.some.injEq] at h
          subst h
          exact hinv3
        · simp only [Option.some.injEq] at h
          subst h
          exact hinv3

theorem inv_initial : InvState initialState := by
  refine ⟨by decide, by decide, ?_, ?_⟩
  · intro q
    show (initAdj q).Nodup
    unfold initAdj
    split_ifs <;> decide
  · intro q l
    show l ∈ initAdj q ↔ (l ∈ initialState.lines ∧ (q = l.p1 ∨ q = l.p2))
    unfold initAdj
    split_ifs with hq1 hq2 hq3 hq4
    · subst hq1
      simp only [initialState, List.mem_cons, List.not_mem_nil, or_false]
      constructor
      · rintro (rfl | rfl) <;> exact ⟨by decide, by decide⟩
      · rintro ⟨rfl | rfl | rfl | rfl, hc⟩
        · exact Or.inl rfl
        · exact absurd hc (by decide)
        · exact absurd hc (by decide)
        · exact Or.inr rfl
    · subst hq2
      simp only [initialState, List.mem_cons, List.not_mem_nil, or_false]
      constructor
      · rintro (rfl | rfl) <;> exact ⟨by decide, by decide⟩
      · rintro ⟨rfl | rfl | rfl | rfl, hc⟩
        · exact Or.inl rfl
        · exact Or.inr rfl
        · exact absurd hc (by decide)
        · exact absurd hc (by decide)
    · subst hq3
      simp only [initialState, List.mem_cons, List.not_mem_nil, or_false]
      constructor
      · rintro (rfl | rfl) <;> exact ⟨by decide, by decide⟩
      · rintro ⟨rfl | rfl | rfl | rfl, hc⟩
        · exact absurd hc (by decide)
        · exact Or.inl rfl
        · exact Or.inr rfl
        · exact absurd hc (by decide)
    · subst hq4
      simp only [initialState, List.mem_cons, List.not_mem_nil, or_false]
      constructor
      · rintro (rfl | rfl) <;> exact ⟨by decide, by decide⟩
      · rintro ⟨rfl | rfl | rfl | rfl, hc⟩
        · exact absurd hc (by decide)
        · exact absurd hc (by decide)
        · exact Or.inl rfl
        · exact Or.inr rfl
    · simp only [initialState, List.mem_cons, List.not_mem_nil, or_false, false_iff]
      rintro ⟨rfl | rfl | rfl | rfl, hc | hc⟩
      · exact hq1 hc
      · exact hq2 hc
      · exact hq2 hc
      · exact hq3 hc
      · exact hq3 hc
      · exact hq4 hc
      · exact hq4 hc
      · exact hq1 hc

theorem reachable_inv (s : GameState) (h : ReachableF s) : InvState s := by
  induction h with
  | init => exact inv_initial
  | step hr hf hm ih => exact makeMove_inv _ _ _ ih hf hm

/-- C9: in every state reachable from new_game by successful make_move calls
whose moves respect the object discipline (endpoints are fresh points, split
lines are lines of the state), a point's adjacency list contains exactly the
state lines that have that point as an endpoint. -/
theorem claimC9 (s : GameState) (h : ReachableF s) (p : GamePoint) (l : GameLine) :
    l ∈ s.adj p ↔ (l ∈ s.lines ∧ (p = l.p1 ∨ p = l.p2)) :=
  (reachable_inv s h).2.2.2 p l

/-- Witness for C9: at the initial state (reachable by the empty sequence),
the left border is in the adjacency list of corner (0,0), and it is indeed a
state line ending there. -/
theorem claimC9_witness :
    bL1 ∈ initialState.adj bP1 ∧
      (bL1 ∈ initialState.lines ∧ (bP1 = bL1.p1 ∨ bP1 = bL1.p2)) :=
  ⟨by decide, (claimC9 initialState ReachableF.init bP1 bL1).mp (by decide)⟩
